/-
Verification of the incremental weight-matrix engine of the tiny kernel
library PathKernel class (src/PathKernel.hpp), together with its kernel
evaluation operators and the weight-matrix persistence layer.

Real numbers of the program (C++ double) are modelled as exact rationals,
so every stated equality is an exact arithmetic identity about the
algorithm rather than a statement about floating-point rounding.
-/
import Mathlib

namespace TinyKernelLib

/-- Reference weight recurrence, written from the recurrence stated in the
documentation of PathKernel.hpp and in the specification: the weight
kernel has value 1 at the origin, CHV times the previous border value on
the borders, and CHV times the sum of the two straight predecessors plus
CD times the diagonal predecessor in the interior.  This is the
from-scratch definition against which the incremental update is compared. -/
def wfun (chv cd : ℚ) : ℕ → ℕ → ℚ
  | 0, 0 => 1
  | i + 1, 0 => chv * wfun chv cd i 0
  | 0, j + 1 => chv * wfun chv cd 0 j
  | i + 1, j + 1 =>
      chv * (wfun chv cd i (j + 1) + wfun chv cd (i + 1) j) + cd * wfun chv cd i j
termination_by i j => i + j

/-- State of one PathKernel instance: the two immutable step costs CHV and CD,
the weight matrix wmat (modelled as a total function, meaningful on the
square region below the current dimension DIM), the current dimension DIM,
the cache directory wDir and the write-permission flag wW.  The ground
kernel reference held by RefKernel is passed explicitly to each evaluation
operator instead of being stored. -/
structure PathKernel where
  CHV : ℚ
  CD : ℚ
  wmat : ℕ → ℕ → ℚ
  DIM : ℕ
  wDir : String
  wW : Bool

/-- Symmetric assignment wmat[a][b] = wmat[b][a] = v, as performed by the
statements of updateWMat that write a value together with its mirror. -/
def updSym (w : ℕ → ℕ → ℚ) (a b : ℕ) (v : ℚ) : ℕ → ℕ → ℚ :=
  fun x y => if (x = a ∧ y = b) ∨ (x = b ∧ y = a) then v else w x y

/-- Growing resize of the weight matrix: cells of the old square region keep
their values, all newly created cells are value-initialized to zero, exactly
as the std::vector resize calls of updateWMat behave. -/
def resizeW (w : ℕ → ℕ → ℚ) (oldDim : ℕ) : ℕ → ℕ → ℚ :=
  fun i j => if i < oldDim ∧ j < oldDim then w i j else 0

/-- First loop of updateWMat: starting at row index i, for cnt iterations,
write the border cells wmat[i][0] = wmat[0][i] = CHV * wmat[i-1][0]. -/
def fillBorders (chv : ℚ) (w : ℕ → ℕ → ℚ) (i : ℕ) : ℕ → (ℕ → ℕ → ℚ)
  | 0 => w
  | cnt + 1 => fillBorders chv (updSym w i 0 (chv * w (i - 1) 0)) (i + 1) cnt

/-- Shared inner loop of updateWMat: along row i, starting at column j, for
cnt iterations, write wmat[i][j] = wmat[j][i] =
CHV * (wmat[i-1][j] + wmat[i][j-1]) + CD * wmat[i-1][j-1]. -/
def fillRow (chv cd : ℚ) (i : ℕ) (w : ℕ → ℕ → ℚ) (j : ℕ) : ℕ → (ℕ → ℕ → ℚ)
  | 0 => w
  | cnt + 1 =>
      fillRow chv cd i
        (updSym w i j (chv * (w (i - 1) j + w i (j - 1)) + cd * w (i - 1) (j - 1)))
        (j + 1) cnt

/-- Second loop of updateWMat: for the old rows i = 1 .. oldDim-1, fill the
new columns oldDim .. dim-1 (together with their mirrors). -/
def fillOldRows (chv cd : ℚ) (oldDim dim : ℕ) (w : ℕ → ℕ → ℚ) (i : ℕ) : ℕ → (ℕ → ℕ → ℚ)
  | 0 => w
  | cnt + 1 => fillOldRows chv cd oldDim dim (fillRow chv cd i w oldDim (dim - oldDim)) (i + 1) cnt

/-- Third loop of updateWMat: for the new rows i = oldDim .. dim-1, write the
diagonal cell wmat[i][i] = 2 * CHV * wmat[i-1][i] + CD * wmat[i-1][i-1] and
then fill the columns i+1 .. dim-1 (together with their mirrors). -/
def fillNewRows (chv cd : ℚ) (dim : ℕ) (w : ℕ → ℕ → ℚ) (i : ℕ) : ℕ → (ℕ → ℕ → ℚ)
  | 0 => w
  | cnt + 1 =>
      fillNewRows chv cd dim
        (fillRow chv cd i
          (updSym w i i (2 * chv * w (i - 1) i + cd * w (i - 1) (i - 1)))
          (i + 1) (dim - (i + 1)))
        (i + 1) cnt

/-- PathKernel::updateWMat.  If dim exceeds the current dimension, the matrix
is resized and the three fill loops compute exactly the newly introduced
cells; otherwise nothing happens. -/
def updateWMat (pk : PathKernel) (dim : ℕ) : PathKernel :=
  if dim > pk.DIM then
    { pk with
      wmat :=
        fillNewRows pk.CHV pk.CD dim
          (fillOldRows pk.CHV pk.CD pk.DIM dim
            (fillBorders pk.CHV (resizeW pk.wmat pk.DIM) pk.DIM (dim - pk.DIM))
            1 (pk.DIM - 1))
          pk.DIM (dim - pk.DIM),
      DIM := dim }
  else pk

/-- PathKernel::initWMat applied to a newly constructed instance: a 1 x 1
weight matrix holding the single value 1, no cache folder, no write flag. -/
def initPK (chv cd : ℚ) : PathKernel :=
  { CHV := chv, CD := cd
    wmat := fun i j => if i = 0 ∧ j = 0 then 1 else 0
    DIM := 1, wDir := "", wW := false }

/-- PathKernel constructor: throws when CHV or CD is not positive, otherwise
produces the initial state. -/
def mkPathKernel (chv cd : ℚ) : Except String PathKernel :=
  if chv ≤ 0 then Except.error "Parameter CHV is not positive."
  else if cd ≤ 0 then Except.error "Parameter CD is not positive."
  else Except.ok (initPK chv cd)

/-- PathKernel::getWMat: a copy of the weight matrix, as a DIM x DIM table. -/
def getWMat (pk : PathKernel) : List (List ℚ) :=
  (List.range pk.DIM).map fun i => (List.range pk.DIM).map fun j => pk.wmat i j

/-- PathKernel::folder: configures the cache directory and write permission. -/
def folder (pk : PathKernel) (f : String) (w : Bool) : PathKernel :=
  { pk with wDir := f, wW := w }

/-- Canonical weight table of dimension d: reference recurrence values inside
the square region, zero outside. -/
def canonW (chv cd : ℚ) (d : ℕ) : ℕ → ℕ → ℚ :=
  fun i j => if i < d ∧ j < d then wfun chv cd i j else 0

/-- Canonical engine state of dimension d, as produced by construction
followed by extend calls. -/
def canonPK (chv cd : ℚ) (d : ℕ) : PathKernel :=
  { CHV := chv, CD := cd, wmat := canonW chv cd d, DIM := d, wDir := "", wW := false }

/-- Well-formedness of an engine state: the dimension is at least one and
the weight matrix is exactly the canonical table of that dimension. -/
def GoodState (pk : PathKernel) : Prop :=
  1 ≤ pk.DIM ∧ pk.wmat = canonW pk.CHV pk.CD pk.DIM

/-- An engine state reachable by a valid construction followed by any
sequence of extend calls. -/
def Reachable (pk : PathKernel) : Prop :=
  ∃ chv cd : ℚ, ∃ ds : List ℕ,
    0 < chv ∧ 0 < cd ∧ pk = ds.foldl updateWMat (initPK chv cd)

/-- Growing or truncating resize of a vector, keeping existing values and
value-initializing new cells, as std::vector resize does. -/
def resizeList {β : Type} (l : List β) (n : ℕ) (dflt : β) : List β :=
  (List.range n).map fun i => l.getD i dflt

/-- The two-sequence operator PathKernel::operator()(s, t, k).  The ground
kernel is passed as the function gk; the incoming value of the output
variable k is returned untouched when a sequence is empty.  On non-empty
input the weight matrix is extended to max(len s, len t) and the result is
the double sum of ground-kernel values weighted by the averaged pair of
mirrored weight-matrix entries. -/
def opPair {α : Type} [Inhabited α] (gk : α → α → ℚ) (pk : PathKernel)
    (s t : List α) (k : ℚ) : PathKernel × ℚ :=
  if s.length = 0 ∨ t.length = 0 then (pk, k)
  else
    (updateWMat pk (max s.length t.length),
      ∑ i ∈ Finset.range s.length, ∑ j ∈ Finset.range t.length,
        gk (s.getD i default) (t.getD j default) *
          ((updateWMat pk (max s.length t.length)).wmat i j +
            (updateWMat pk (max s.length t.length)).wmat
              (s.length - i - 1) (t.length - j - 1)) / 2)

/-- The single-sequence operator PathKernel::operator()(s, k).  Mirrors the
source loop: the diagonal contributes skm[i][i] * wmat[i][i], the strict
upper triangle contributes 2 * skm[i][j] * (wmat[i][j] +
wmat[n-i-1][n-j-1]) / 2. -/
def opSelf {α : Type} [Inhabited α] (gk : α → α → ℚ) (pk : PathKernel)
    (s : List α) (k : ℚ) : PathKernel × ℚ :=
  if s.length = 0 then (pk, k)
  else
    (updateWMat pk s.length,
      ∑ i ∈ Finset.range s.length,
        (gk (s.getD i default) (s.getD i default) * (updateWMat pk s.length).wmat i i +
          ∑ j ∈ Finset.Ico (i + 1) s.length,
            2 * gk (s.getD i default) (s.getD j default) *
              ((updateWMat pk s.length).wmat i j +
                (updateWMat pk s.length).wmat (s.length - i - 1) (s.length - j - 1)) / 2))

/-- The batched operator PathKernel::operator()(slist, tlist, km): throws on
an empty input list, otherwise resizes km and fills every cell through the
two-sequence operator, threading the engine state through the calls. -/
def opPairList {α : Type} [Inhabited α] (gk : α → α → ℚ) (pk : PathKernel)
    (slist tlist : List (List α)) (km : List (List ℚ)) :
    Except String (PathKernel × List (List ℚ)) :=
  if slist.length = 0 ∨ tlist.length = 0 then Except.error "Empty sequence vector."
  else Except.ok <|
    (List.range slist.length).foldl
      (fun acc i =>
        let inner := (List.range tlist.length).foldl
          (fun acc2 j =>
            let r := opPair gk acc2.1 (slist.getD i []) (tlist.getD j []) (acc2.2.getD j 0)
            (r.1, acc2.2.set j r.2))
          (acc.1, resizeList (acc.2.getD i []) tlist.length 0)
        (inner.1, acc.2.set i inner.2))
      (pk, resizeList km slist.length [])

/-- The batched operator PathKernel::operator()(slist, km): the output is
resized before the emptiness check, the check throws on an empty list, and
the body fills the diagonal through the single-sequence operator and the
strict lower triangle through the two-sequence operator, mirroring each
value to the upper triangle.  The error branch of the source also leaves
the caller-owned matrix resized to length zero; the exception model here
carries only the message. -/
def opSelfList {α : Type} [Inhabited α] (gk : α → α → ℚ) (pk : PathKernel)
    (slist : List (List α)) (km : List (List ℚ)) :
    Except String (PathKernel × List (List ℚ)) :=
  if slist.length = 0 then Except.error "Empty sequence vector."
  else Except.ok <|
    (List.range slist.length).foldl
      (fun acc i =>
        let kmA := acc.2.set i (resizeList (acc.2.getD i []) slist.length 0)
        let rSelf := opSelf gk acc.1 (slist.getD i []) ((kmA.getD i []).getD i 0)
        let kmB := kmA.set i ((kmA.getD i []).set i rSelf.2)
        (List.range i).foldl
          (fun acc2 j =>
            let r := opPair gk acc2.1 (slist.getD i []) (slist.getD j [])
              ((acc2.2.getD i []).getD j 0)
            let kmC := acc2.2.set i ((acc2.2.getD i []).set j r.2)
            (r.1, kmC.set j ((kmC.getD j []).set i ((kmC.getD i []).getD j 0))))
          (rSelf.1, kmB))
      (pk, resizeList km slist.length [])

/-- The batched operator PathKernel::operator()(slist, kv): resizes the
output vector and evaluates the single-sequence operator per element.  The
source performs no emptiness check in this overload. -/
def opSelfVec {α : Type} [Inhabited α] (gk : α → α → ℚ) (pk : PathKernel)
    (slist : List (List α)) (kv : List ℚ) :
    Except String (PathKernel × List ℚ) :=
  Except.ok <|
    (List.range slist.length).foldl
      (fun acc i =>
        let r := opSelf gk acc.1 (slist.getD i []) (acc.2.getD i 0)
        (r.1, acc.2.set i r.2))
      (pk, resizeList kv slist.length 0)

/-- Content of one weight-matrix cache file: the leading dimension field
followed by the dimension-squared matrix values in row-major order. -/
structure CacheRecord where
  dim : ℕ
  vals : List ℚ

/-- The file system visible to the persistence layer, as a map from the
deterministic file identity derived from the directory and the parameter
pair (CHV, CD) to the stored record. -/
def WFileSys : Type := (String × ℚ × ℚ) → Option CacheRecord

/-- File identity used by saveWMat and loadWMat: fixed-precision formatting
of the parameters makes the name a deterministic function of the directory
and of (CHV, CD). -/
def wkey (pk : PathKernel) : String × ℚ × ℚ := (pk.wDir, pk.CHV, pk.CD)

/-- Row-major serialization of the current weight matrix, as written by the
nested output loop of saveWMat. -/
def flattenW (pk : PathKernel) : List ℚ := (getWMat pk).flatten

/-- Decision logic of PathKernel::saveWMat: write only when a directory is
configured, writing is permitted, and no existing record for the same
parameters has dimension at least the current one. -/
def shouldSave (pk : PathKernel) (fs : WFileSys) : Bool :=
  if 0 < pk.wDir.length ∧ pk.wW = true then
    match fs (wkey pk) with
    | some r => decide (r.dim < pk.DIM)
    | none => true
  else false

/-- PathKernel::saveWMat.  The method is const: the engine state is returned
unchanged; only the file system component can change.  Returns true exactly
when a record was written. -/
def saveWMat (pk : PathKernel) (fs : WFileSys) : PathKernel × Bool × WFileSys :=
  if shouldSave pk fs = true then
    (pk, true,
      fun key => if key = wkey pk then some ⟨pk.DIM, flattenW pk⟩ else fs key)
  else (pk, false, fs)

/-- PathKernel::loadWMat.  Replaces the in-memory dimension and table with
the stored record when a directory is configured, a record exists for the
same parameters, and the stored dimension strictly exceeds the current
one; otherwise no change.  Returns true exactly when a load occurred. -/
def loadWMat (pk : PathKernel) (fs : WFileSys) : PathKernel × Bool :=
  if 0 < pk.wDir.length then
    match fs (wkey pk) with
    | some r =>
        if pk.DIM < r.dim then
          ({ pk with
              DIM := r.dim,
              wmat := fun i j =>
                if i < r.dim ∧ j < r.dim then r.vals.getD (i * r.dim + j) 0 else 0 },
            true)
        else (pk, false)
    | none => (pk, false)
  else (pk, false)

/-- Ground kernel used in the concrete evaluations: the symmetric
positive-semidefinite label kernel with characteristic matrix
[[2, 0], [0, 1]], a legal SymKernel instance. -/
def gkDemo : ℕ → ℕ → ℚ := fun a b =>
  if a = 0 ∧ b = 0 then 2 else if a = b then 1 else 0

/-- Indicator ground kernel: one on identical symbols, zero otherwise. -/
def gkInd : ℕ → ℕ → ℚ := fun a b => if a = b then 1 else 0

theorem wfun_zero_zero (chv cd : ℚ) : wfun chv cd 0 0 = 1 := by
  rw [wfun]

theorem wfun_succ_zero (chv cd : ℚ) (i : ℕ) :
    wfun chv cd (i + 1) 0 = chv * wfun chv cd i 0 := by
  rw [wfun]

theorem wfun_zero_succ (chv cd : ℚ) (j : ℕ) :
    wfun chv cd 0 (j + 1) = chv * wfun chv cd 0 j := by
  rw [wfun]

theorem wfun_succ_succ (chv cd : ℚ) (i j : ℕ) :
    wfun chv cd (i + 1) (j + 1) =
      chv * (wfun chv cd i (j + 1) + wfun chv cd (i + 1) j) + cd * wfun chv cd i j := by
  rw [wfun]

theorem wfun_symm_aux (chv cd : ℚ) :
    ∀ n i j, i + j ≤ n → wfun chv cd i j = wfun chv cd j i := by
  intro n
  induction n with
  | zero =>
    intro i j h
    have hi : i = 0 := by omega
    have hj : j = 0 := by omega
    subst hi; subst hj; rfl
  | succ n ih =>
    intro i j h
    match i, j with
    | 0, 0 => rfl
    | a + 1, 0 => rw [wfun_succ_zero, wfun_zero_succ, ih a 0 (by omega)]
    | 0, b + 1 => rw [wfun_succ_zero, wfun_zero_succ, ih 0 b (by omega)]
    | a + 1, b + 1 =>
      rw [wfun_succ_succ, wfun_succ_succ, ih a (b + 1) (by omega),
        ih (a + 1) b (by omega), ih a b (by omega)]
      ring

/-- Symmetry of the reference weight recurrence. -/
theorem wfun_symm (chv cd : ℚ) (i j : ℕ) : wfun chv cd i j = wfun chv cd j i :=
  wfun_symm_aux chv cd (i + j) i j le_rfl

theorem wfun_pos_aux (chv cd : ℚ) (hchv : 0 < chv) (hcd : 0 < cd) :
    ∀ n i j, i + j ≤ n → 0 < wfun chv cd i j := by
  intro n
  induction n with
  | zero =>
    intro i j h
    have hi : i = 0 := by omega
    have hj : j = 0 := by omega
    subst hi; subst hj
    rw [wfun_zero_zero]; norm_num
  | succ n ih =>
    intro i j h
    match i, j with
    | 0, 0 => rw [wfun_zero_zero]; norm_num
    | a + 1, 0 => rw [wfun_succ_zero]; exact mul_pos hchv (ih a 0 (by omega))
    | 0, b + 1 => rw [wfun_zero_succ]; exact mul_pos hchv (ih 0 b (by omega))
    | a + 1, b + 1 =>
      rw [wfun_succ_succ]
      have h1 := ih a (b + 1) (by omega)
      have h2 := ih (a + 1) b (by omega)
      have h3 := ih a b (by omega)
      positivity

/-- Strict positivity of the reference weight recurrence for positive step costs. -/
theorem wfun_pos (chv cd : ℚ) (hchv : 0 < chv) (hcd : 0 < cd) (i j : ℕ) :
    0 < wfun chv cd i j :=
  wfun_pos_aux chv cd hchv hcd (i + j) i j le_rfl

/-- Border form of the recurrence with truncated subtraction, as used by the update loop. -/
theorem wfun_border (chv cd : ℚ) (i : ℕ) (hi : 1 ≤ i) :
    wfun chv cd i 0 = chv * wfun chv cd (i - 1) 0 := by
  match i, hi with
  | a + 1, _ => simpa using wfun_succ_zero chv cd a

/-- Interior form of the recurrence with truncated subtraction, as used by the update loop. -/
theorem wfun_interior (chv cd : ℚ) (i j : ℕ) (hi : 1 ≤ i) (hj : 1 ≤ j) :
    wfun chv cd i j =
      chv * (wfun chv cd (i - 1) j + wfun chv cd i (j - 1)) + cd * wfun chv cd (i - 1) (j - 1) := by
  match i, hi, j, hj with
  | a + 1, _, b + 1, _ => simpa using wfun_succ_succ chv cd a b

/-- Diagonal form of the recurrence, matching the special diagonal assignment of the update loop. -/
theorem wfun_diag (chv cd : ℚ) (i : ℕ) (hi : 1 ≤ i) :
    wfun chv cd i i = 2 * chv * wfun chv cd (i - 1) i + cd * wfun chv cd (i - 1) (i - 1) := by
  rw [wfun_interior chv cd i i hi hi, wfun_symm chv cd i (i - 1)]
  ring

theorem updSym_pos (w : ℕ → ℕ → ℚ) (a b : ℕ) (v : ℚ) (x y : ℕ)
    (h : (x = a ∧ y = b) ∨ (x = b ∧ y = a)) : updSym w a b v x y = v :=
  if_pos h

theorem updSym_neg (w : ℕ → ℕ → ℚ) (a b : ℕ) (v : ℚ) (x y : ℕ)
    (h : ¬ ((x = a ∧ y = b) ∨ (x = b ∧ y = a))) : updSym w a b v x y = w x y :=
  if_neg h

theorem fillRow_spec (chv cd : ℚ) (i : ℕ) (hi : 1 ≤ i) :
    ∀ (cnt j : ℕ) (w : ℕ → ℕ → ℚ), i < j →
      (∀ b, j - 1 ≤ b → b < j + cnt → w (i - 1) b = wfun chv cd (i - 1) b) →
      w i (j - 1) = wfun chv cd i (j - 1) →
      (∀ a b, ¬ ((a = i ∧ j ≤ b ∧ b < j + cnt) ∨ (b = i ∧ j ≤ a ∧ a < j + cnt)) →
          fillRow chv cd i w j cnt a b = w a b) ∧
      (∀ b, j ≤ b → b < j + cnt →
          fillRow chv cd i w j cnt i b = wfun chv cd i b ∧
          fillRow chv cd i w j cnt b i = wfun chv cd i b) := by
  intro cnt
  induction cnt with
  | zero =>
    intro j w hij hrow hleft
    refine ⟨fun a b h => rfl, ?_⟩
    intro b hb1 hb2
    omega
  | succ n ih =>
    intro j w hij hrow hleft
    have hvj : chv * (w (i - 1) j + w i (j - 1)) + cd * w (i - 1) (j - 1) = wfun chv cd i j := by
      rw [hrow j (by omega) (by omega), hleft, hrow (j - 1) (by omega) (by omega),
        ← wfun_interior chv cd i j hi (by omega)]
    set w1 := updSym w i j (chv * (w (i - 1) j + w i (j - 1)) + cd * w (i - 1) (j - 1)) with hw1
    have h1ij : w1 i j = wfun chv cd i j := by
      rw [hw1, updSym_pos _ _ _ _ _ _ (Or.inl ⟨rfl, rfl⟩), hvj]
    have h1ji : w1 j i = wfun chv cd i j := by
      rw [hw1, updSym_pos _ _ _ _ _ _ (Or.inr ⟨rfl, rfl⟩), hvj]
    have h1other : ∀ a b, ¬ ((a = i ∧ b = j) ∨ (a = j ∧ b = i)) → w1 a b = w a b := by
      intro a b h
      rw [hw1, updSym_neg _ _ _ _ _ _ h]
    have hrec : fillRow chv cd i w j (n + 1) = fillRow chv cd i w1 (j + 1) n := rfl
    have hrow1 : ∀ b, (j + 1) - 1 ≤ b → b < (j + 1) + n → w1 (i - 1) b = wfun chv cd (i - 1) b := by
      intro b hb1 hb2
      rw [h1other (i - 1) b (by omega)]
      exact hrow b (by omega) (by omega)
    have hleft1 : w1 i ((j + 1) - 1) = wfun chv cd i ((j + 1) - 1) := by
      simpa using h1ij
    obtain ⟨IH1, IH2⟩ := ih (j + 1) w1 (by omega) hrow1 hleft1
    constructor
    · intro a b hab
      rw [hrec, IH1 a b (by omega), h1other a b (by omega)]
    · intro b hb1 hb2
      rw [hrec]
      by_cases hbj : b = j
      · subst hbj
        exact ⟨by rw [IH1 i b (by omega), h1ij], by rw [IH1 b i (by omega), h1ji]⟩
      · exact IH2 b (by omega) (by omega)

theorem fillBorders_spec (chv cd : ℚ) :
    ∀ (cnt i : ℕ) (w : ℕ → ℕ → ℚ), 1 ≤ i →
      w (i - 1) 0 = wfun chv cd (i - 1) 0 →
      (∀ a b, ¬ ((b = 0 ∧ i ≤ a ∧ a < i + cnt) ∨ (a = 0 ∧ i ≤ b ∧ b < i + cnt)) →
          fillBorders chv w i cnt a b = w a b) ∧
      (∀ a, i ≤ a → a < i + cnt →
          fillBorders chv w i cnt a 0 = wfun chv cd a 0 ∧
          fillBorders chv w i cnt 0 a = wfun chv cd a 0) := by
  intro cnt
  induction cnt with
  | zero =>
    intro i w hi hprev
    refine ⟨fun a b h => rfl, ?_⟩
    intro a ha1 ha2
    omega
  | succ n ih =>
    intro i w hi hprev
    have hvi : chv * w (i - 1) 0 = wfun chv cd i 0 := by
      rw [hprev, ← wfun_border chv cd i hi]
    set w1 := updSym w i 0 (chv * w (i - 1) 0) with hw1
    have h1i0 : w1 i 0 = wfun chv cd i 0 := by
      rw [hw1, updSym_pos _ _ _ _ _ _ (Or.inl ⟨rfl, rfl⟩), hvi]
    have h10i : w1 0 i = wfun chv cd i 0 := by
      rw [hw1, updSym_pos _ _ _ _ _ _ (Or.inr ⟨rfl, rfl⟩), hvi]
    have h1other : ∀ a b, ¬ ((a = i ∧ b = 0) ∨ (a = 0 ∧ b = i)) → w1 a b = w a b := by
      intro a b h
      rw [hw1, updSym_neg _ _ _ _ _ _ h]
    have hrec : fillBorders chv w i (n + 1) = fillBorders chv w1 (i + 1) n := rfl
    have hprev1 : w1 ((i + 1) - 1) 0 = wfun chv cd ((i + 1) - 1) 0 := by
      simpa using h1i0
    obtain ⟨IH1, IH2⟩ := ih (i + 1) w1 (by omega) hprev1
    constructor
    · intro a b hab
      rw [hrec, IH1 a b (by omega), h1other a b (by omega)]
    · intro a ha1 ha2
      rw [hrec]
      by_cases hai : a = i
      · subst hai
        exact ⟨by rw [IH1 a 0 (by omega), h1i0], by rw [IH1 0 a (by omega), h10i]⟩
      · exact IH2 a (by omega) (by omega)

theorem fillOldRows_spec (chv cd : ℚ) (oldDim dim : ℕ) (hod : oldDim < dim) :
    ∀ (cnt i : ℕ) (w : ℕ → ℕ → ℚ), 1 ≤ i → i + cnt = oldDim →
      (∀ a b, a < oldDim → b < oldDim → w a b = wfun chv cd a b) →
      (∀ a, a < i → ∀ b, oldDim ≤ b → b < dim →
          w a b = wfun chv cd a b ∧ w b a = wfun chv cd b a) →
      (∀ a b, ¬ ((i ≤ a ∧ a < oldDim ∧ oldDim ≤ b ∧ b < dim) ∨
                 (i ≤ b ∧ b < oldDim ∧ oldDim ≤ a ∧ a < dim)) →
          fillOldRows chv cd oldDim dim w i cnt a b = w a b) ∧
      (∀ a, a < oldDim → ∀ b, oldDim ≤ b → b < dim →
          fillOldRows chv cd oldDim dim w i cnt a b = wfun chv cd a b ∧
          fillOldRows chv cd oldDim dim w i cnt b a = wfun chv cd b a) := by
  intro cnt
  induction cnt with
  | zero =>
    intro i w hi hicnt hold hdone
    refine ⟨fun a b h => rfl, ?_⟩
    intro a ha b hb1 hb2
    exact hdone a (by omega) b hb1 hb2
  | succ n ih =>
    intro i w hi hicnt hold hdone
    have hiod : i < oldDim := by omega
    have hrowpre : ∀ b, oldDim - 1 ≤ b → b < oldDim + (dim - oldDim) →
        w (i - 1) b = wfun chv cd (i - 1) b := by
      intro b hb1 hb2
      by_cases hbo : b < oldDim
      · exact hold (i - 1) b (by omega) hbo
      · exact (hdone (i - 1) (by omega) b (by omega) (by omega)).1
    have hleftpre : w i (oldDim - 1) = wfun chv cd i (oldDim - 1) :=
      hold i (oldDim - 1) hiod (by omega)
    obtain ⟨F1, F2⟩ := fillRow_spec chv cd i hi (dim - oldDim) oldDim w hiod hrowpre hleftpre
    set w1 := fillRow chv cd i w oldDim (dim - oldDim) with hw1
    have hrec : fillOldRows chv cd oldDim dim w i (n + 1) =
        fillOldRows chv cd oldDim dim w1 (i + 1) n := rfl
    have hold1 : ∀ a b, a < oldDim → b < oldDim → w1 a b = wfun chv cd a b := by
      intro a b ha hb
      rw [F1 a b (by omega)]
      exact hold a b ha hb
    have hdone1 : ∀ a, a < i + 1 → ∀ b, oldDim ≤ b → b < dim →
        w1 a b = wfun chv cd a b ∧ w1 b a = wfun chv cd b a := by
      intro a ha b hb1 hb2
      by_cases hai : a = i
      · subst hai
        have h2 := F2 b (by omega) (by omega)
        exact ⟨h2.1, h2.2.trans (wfun_symm chv cd a b)⟩
      · have ha2 : a < i := by omega
        constructor
        · rw [F1 a b (by omega)]
          exact (hdone a ha2 b hb1 hb2).1
        · rw [F1 b a (by omega)]
          exact (hdone a ha2 b hb1 hb2).2
    obtain ⟨G1, G2⟩ := ih (i + 1) w1 (by omega) (by omega) hold1 hdone1
    constructor
    · intro a b hab
      rw [hrec, G1 a b (by omega)]
      exact F1 a b (by omega)
    · intro a ha b hb1 hb2
      rw [hrec]
      exact G2 a ha b hb1 hb2

theorem fillNewRows_spec (chv cd : ℚ) (dim : ℕ) :
    ∀ (cnt i : ℕ) (w : ℕ → ℕ → ℚ), 1 ≤ i → i + cnt = dim →
      (∀ a b, a < dim → b < dim → (a < i ∨ b < i) → w a b = wfun chv cd a b) →
      (∀ a b, ¬ ((i ≤ a ∧ a < dim ∧ b < dim) ∨ (i ≤ b ∧ b < dim ∧ a < dim)) →
          fillNewRows chv cd dim w i cnt a b = w a b) ∧
      (∀ a b, a < dim → b < dim → fillNewRows chv cd dim w i cnt a b = wfun chv cd a b) := by
  intro cnt
  induction cnt with
  | zero =>
    intro i w hi hicnt hband
    refine ⟨fun a b h => rfl, ?_⟩
    intro a b ha hb
    exact hband a b ha hb (by omega)
  | succ n ih =>
    intro i w hi hicnt hband
    have hidim : i < dim := by omega
    have hvdiag : 2 * chv * w (i - 1) i + cd * w (i - 1) (i - 1) = wfun chv cd i i := by
      rw [hband (i - 1) i (by omega) hidim (by omega),
        hband (i - 1) (i - 1) (by omega) (by omega) (by omega),
        ← wfun_diag chv cd i hi]
    set w1 := updSym w i i (2 * chv * w (i - 1) i + cd * w (i - 1) (i - 1)) with hw1
    have h1diag : w1 i i = wfun chv cd i i := by
      rw [hw1, updSym_pos _ _ _ _ _ _ (Or.inl ⟨rfl, rfl⟩), hvdiag]
    have h1other : ∀ a b, ¬ (a = i ∧ b = i) → w1 a b = w a b := by
      intro a b h
      rw [hw1, updSym_neg _ _ _ _ _ _ (by tauto)]
    have hrowpre : ∀ b, (i + 1) - 1 ≤ b → b < (i + 1) + (dim - (i + 1)) →
        w1 (i - 1) b = wfun chv cd (i - 1) b := by
      intro b hb1 hb2
      rw [h1other (i - 1) b (by omega)]
      exact hband (i - 1) b (by omega) (by omega) (by omega)
    have hleftpre : w1 i ((i + 1) - 1) = wfun chv cd i ((i + 1) - 1) := by
      simpa using h1diag
    obtain ⟨F1, F2⟩ := fillRow_spec chv cd i hi (dim - (i + 1)) (i + 1) w1 (by omega) hrowpre hleftpre
    set w2 := fillRow chv cd i w1 (i + 1) (dim - (i + 1)) with hw2
    have hrec : fillNewRows chv cd dim w i (n + 1) = fillNewRows chv cd dim w2 (i + 1) n := rfl
    have hband1 : ∀ a b, a < dim → b < dim → (a < i + 1 ∨ b < i + 1) →
        w2 a b = wfun chv cd a b := by
      intro a b ha hb hor
      by_cases hcase : a < i ∨ b < i
      · rw [F1 a b (by omega), h1other a b (by omega)]
        exact hband a b ha hb hcase
      · by_cases hai : a = i
        · subst hai
          by_cases hbi : b = a
          · subst hbi
            rw [F1 b b (by omega)]
            exact h1diag
          · exact (F2 b (by omega) (by omega)).1
        · have hbi : b = i := by omega
          subst hbi
          exact ((F2 a (by omega) (by omega)).2).trans (wfun_symm chv cd b a)
    obtain ⟨G1, G2⟩ := ih (i + 1) w2 (by omega) (by omega) hband1
    constructor
    · intro a b hab
      rw [hrec, G1 a b (by omega), F1 a b (by omega), h1other a b (by omega)]
    · intro a b ha hb
      rw [hrec]
      exact G2 a b ha hb

theorem canonW_eq (chv cd : ℚ) (d a b : ℕ) (ha : a < d) (hb : b < d) :
    canonW chv cd d a b = wfun chv cd a b := by
  show (if a < d ∧ b < d then wfun chv cd a b else 0) = wfun chv cd a b
  rw [if_pos ⟨ha, hb⟩]

theorem canonW_zero (chv cd : ℚ) (d a b : ℕ) (h : ¬ (a < d ∧ b < d)) :
    canonW chv cd d a b = 0 := by
  show (if a < d ∧ b < d then wfun chv cd a b else 0) = 0
  rw [if_neg h]

theorem resizeW_canon (chv cd : ℚ) (w : ℕ → ℕ → ℚ) (d : ℕ) (hw : w = canonW chv cd d) :
    resizeW w d = canonW chv cd d := by
  subst hw
  funext a b
  show (if a < d ∧ b < d then canonW chv cd d a b else 0) = canonW chv cd d a b
  by_cases hab : a < d ∧ b < d
  · rw [if_pos hab]
  · rw [if_neg hab, canonW_zero chv cd d a b hab]

/-- Central correctness result of the incremental update: starting from a
well-formed state, the updated weight matrix is exactly the canonical table
of the grown dimension, so the incremental fill agrees with the
from-scratch recurrence everywhere. -/
theorem updateWMat_wmat (pk : PathKernel) (dim : ℕ) (h1 : 1 ≤ pk.DIM)
    (hw : pk.wmat = canonW pk.CHV pk.CD pk.DIM) :
    (updateWMat pk dim).wmat = canonW pk.CHV pk.CD (max pk.DIM dim) := by
  by_cases hd : dim > pk.DIM
  · have hmax : max pk.DIM dim = dim := max_eq_right (le_of_lt hd)
    rw [hmax]
    have hup : (updateWMat pk dim).wmat =
        fillNewRows pk.CHV pk.CD dim
          (fillOldRows pk.CHV pk.CD pk.DIM dim
            (fillBorders pk.CHV (resizeW pk.wmat pk.DIM) pk.DIM (dim - pk.DIM))
            1 (pk.DIM - 1))
          pk.DIM (dim - pk.DIM) := by
      unfold updateWMat
      rw [if_pos hd]
    rw [hup, resizeW_canon pk.CHV pk.CD pk.wmat pk.DIM hw]
    obtain ⟨A1, A2⟩ := fillBorders_spec pk.CHV pk.CD (dim - pk.DIM) pk.DIM
      (canonW pk.CHV pk.CD pk.DIM) h1
      (canonW_eq pk.CHV pk.CD pk.DIM (pk.DIM - 1) 0 (by omega) (by omega))
    set w1 := fillBorders pk.CHV (canonW pk.CHV pk.CD pk.DIM) pk.DIM (dim - pk.DIM) with hw1v
    have hold : ∀ a b, a < pk.DIM → b < pk.DIM → w1 a b = wfun pk.CHV pk.CD a b := by
      intro a b ha hb
      rw [A1 a b (by omega), canonW_eq pk.CHV pk.CD pk.DIM a b ha hb]
    have hdone : ∀ a, a < 1 → ∀ b, pk.DIM ≤ b → b < dim →
        w1 a b = wfun pk.CHV pk.CD a b ∧ w1 b a = wfun pk.CHV pk.CD b a := by
      intro a ha b hb1 hb2
      have ha0 : a = 0 := by omega
      subst ha0
      have h2 := A2 b hb1 (by omega)
      exact ⟨h2.2.trans (wfun_symm pk.CHV pk.CD b 0), h2.1⟩
    obtain ⟨B1, B2⟩ := fillOldRows_spec pk.CHV pk.CD pk.DIM dim hd (pk.DIM - 1) 1 w1
      (le_refl 1) (by omega) hold hdone
    set w2 := fillOldRows pk.CHV pk.CD pk.DIM dim w1 1 (pk.DIM - 1) with hw2v
    have hband : ∀ a b, a < dim → b < dim → (a < pk.DIM ∨ b < pk.DIM) →
        w2 a b = wfun pk.CHV pk.CD a b := by
      intro a b ha hb hor
      by_cases hcase : a < pk.DIM ∧ b < pk.DIM
      · rw [B1 a b (by omega), A1 a b (by omega),
          canonW_eq pk.CHV pk.CD pk.DIM a b hcase.1 hcase.2]
      · rcases hor with h | h
        · exact (B2 a h b (by omega) hb).1
        · exact (B2 b h a (by omega) ha).2
    obtain ⟨C1, C2⟩ := fillNewRows_spec pk.CHV pk.CD dim (dim - pk.DIM) pk.DIM w2
      h1 (by omega) hband
    funext x y
    by_cases hxy : x < dim ∧ y < dim
    · rw [C2 x y hxy.1 hxy.2, canonW_eq pk.CHV pk.CD dim x y hxy.1 hxy.2]
    · rw [C1 x y (by omega), B1 x y (by omega), A1 x y (by omega),
        canonW_zero pk.CHV pk.CD pk.DIM x y (by omega),
        canonW_zero pk.CHV pk.CD dim x y hxy]
  · have hmax : max pk.DIM dim = pk.DIM := max_eq_left (by omega)
    have hnoop : updateWMat pk dim = pk := by
      unfold updateWMat
      rw [if_neg hd]
    rw [hnoop, hmax, hw]

theorem updateWMat_DIM (pk : PathKernel) (dim : ℕ) :
    (updateWMat pk dim).DIM = max pk.DIM dim := by
  by_cases hd : dim > pk.DIM
  · unfold updateWMat
    rw [if_pos hd]
    show dim = max pk.DIM dim
    exact (max_eq_right (le_of_lt hd)).symm
  · unfold updateWMat
    rw [if_neg hd]
    show pk.DIM = max pk.DIM dim
    exact (max_eq_left (by omega)).symm

theorem updateWMat_fields (pk : PathKernel) (dim : ℕ) :
    (updateWMat pk dim).CHV = pk.CHV ∧ (updateWMat pk dim).CD = pk.CD ∧
    (updateWMat pk dim).wDir = pk.wDir ∧ (updateWMat pk dim).wW = pk.wW := by
  by_cases hd : dim > pk.DIM
  · unfold updateWMat
    rw [if_pos hd]
    exact ⟨rfl, rfl, rfl, rfl⟩
  · unfold updateWMat
    rw [if_neg hd]
    exact ⟨rfl, rfl, rfl, rfl⟩

theorem updateWMat_good (pk : PathKernel) (dim : ℕ) (h : GoodState pk) :
    GoodState (updateWMat pk dim) := by
  obtain ⟨h1, hw⟩ := h
  constructor
  · rw [updateWMat_DIM]
    exact le_trans h1 (le_max_left _ _)
  · rw [updateWMat_DIM, (updateWMat_fields pk dim).1, (updateWMat_fields pk dim).2.1]
    exact updateWMat_wmat pk dim h1 hw

theorem pathKernel_ext (p q : PathKernel) (h1 : p.CHV = q.CHV) (h2 : p.CD = q.CD)
    (h3 : p.wmat = q.wmat) (h4 : p.DIM = q.DIM) (h5 : p.wDir = q.wDir) (h6 : p.wW = q.wW) :
    p = q := by
  cases p
  cases q
  simp_all

theorem initPK_eq_canonPK (chv cd : ℚ) : initPK chv cd = canonPK chv cd 1 := by
  refine pathKernel_ext _ _ rfl rfl ?_ rfl rfl rfl
  funext a b
  show (if a = 0 ∧ b = 0 then (1 : ℚ) else 0) = canonW chv cd 1 a b
  by_cases h : a = 0 ∧ b = 0
  · rw [if_pos h]
    obtain ⟨ha, hb⟩ := h
    subst ha
    subst hb
    rw [canonW_eq chv cd 1 0 0 (by omega) (by omega), wfun_zero_zero]
  · rw [if_neg h, canonW_zero chv cd 1 a b (by omega)]

theorem updateWMat_canonPK (chv cd : ℚ) (d e : ℕ) (hd : 1 ≤ d) :
    updateWMat (canonPK chv cd d) e = canonPK chv cd (max d e) := by
  have hflds := updateWMat_fields (canonPK chv cd d) e
  refine pathKernel_ext _ _ hflds.1 hflds.2.1 ?_ ?_ hflds.2.2.1 hflds.2.2.2
  · exact updateWMat_wmat (canonPK chv cd d) e hd rfl
  · exact updateWMat_DIM (canonPK chv cd d) e

theorem foldl_updateWMat_canonPK (chv cd : ℚ) :
    ∀ (ds : List ℕ) (d : ℕ), 1 ≤ d →
      ds.foldl updateWMat (canonPK chv cd d) = canonPK chv cd (ds.foldl max d) := by
  intro ds
  induction ds with
  | nil => intro d hd; rfl
  | cons e t ih =>
    intro d hd
    show t.foldl updateWMat (updateWMat (canonPK chv cd d) e) = _
    rw [updateWMat_canonPK chv cd d e hd, ih (max d e) (le_trans hd (le_max_left _ _))]
    rfl

theorem foldl_max_le (n : ℕ) : ∀ (ds : List ℕ) (acc : ℕ), acc ≤ n → (∀ d ∈ ds, d ≤ n) →
    ds.foldl max acc ≤ n := by
  intro ds
  induction ds with
  | nil => intro acc h _; simpa using h
  | cons e t ih =>
    intro acc h hall
    have he : e ≤ n := hall e (List.mem_cons_self e t)
    exact ih (max acc e) (max_le h he) (fun d hd => hall d (List.mem_cons_of_mem e hd))

theorem acc_le_foldl_max : ∀ (ds : List ℕ) (acc : ℕ), acc ≤ ds.foldl max acc := by
  intro ds
  induction ds with
  | nil => intro acc; simp
  | cons e t ih => intro acc; exact le_trans (le_max_left acc e) (ih (max acc e))

theorem mem_le_foldl_max : ∀ (ds : List ℕ) (acc n : ℕ), n ∈ ds → n ≤ ds.foldl max acc := by
  intro ds
  induction ds with
  | nil => intro acc n h; simp at h
  | cons e t ih =>
    intro acc n h
    rcases List.mem_cons.mp h with rfl | h2
    · exact le_trans (le_max_right acc n) (acc_le_foldl_max t (max acc n))
    · exact ih (max acc e) n h2

theorem chain_le_last : ∀ (ds : List ℕ), ds.Chain' (· ≤ ·) → ∀ n, ds.getLast? = some n →
    ∀ d ∈ ds, d ≤ n := by
  intro ds
  induction ds with
  | nil => intro _ n h; simp at h
  | cons x t ih =>
    intro hch n hlast d hd
    cases t with
    | nil =>
      simp at hlast hd
      omega
    | cons y t2 =>
      rw [List.getLast?_cons_cons] at hlast
      rw [List.chain'_cons] at hch
      rcases List.mem_cons.mp hd with rfl | hd2
      · have hy := ih hch.2 n hlast y (List.mem_cons_self y t2)
        omega
      · exact ih hch.2 n hlast d hd2

theorem mem_of_getLast_eq : ∀ (ds : List ℕ) (n : ℕ), ds.getLast? = some n → n ∈ ds := by
  intro ds
  induction ds with
  | nil => intro n h; simp at h
  | cons x t ih =>
    intro n h
    cases t with
    | nil =>
      simp at h
      simp [h]
    | cons y t2 =>
      rw [List.getLast?_cons_cons] at h
      exact List.mem_cons.mpr (Or.inr (ih n h))

theorem initPK_good (chv cd : ℚ) : GoodState (initPK chv cd) := by
  constructor
  · exact le_refl 1
  · rw [initPK_eq_canonPK]
    rfl

theorem foldl_good : ∀ (ds : List ℕ) (pk : PathKernel), GoodState pk →
    GoodState (ds.foldl updateWMat pk) := by
  intro ds
  induction ds with
  | nil => intro pk h; exact h
  | cons e t ih => intro pk h; exact ih (updateWMat pk e) (updateWMat_good pk e h)

theorem reachable_good (pk : PathKernel) (h : Reachable pk) : GoodState pk := by
  obtain ⟨chv, cd, ds, hchv, hcd, rfl⟩ := h
  exact foldl_good ds _ (initPK_good chv cd)

theorem foldl_updateWMat_params : ∀ (ds : List ℕ) (pk : PathKernel),
    (ds.foldl updateWMat pk).CHV = pk.CHV ∧ (ds.foldl updateWMat pk).CD = pk.CD := by
  intro ds
  induction ds with
  | nil => intro pk; exact ⟨rfl, rfl⟩
  | cons e t ih =>
    intro pk
    have h := updateWMat_fields pk e
    have h2 := ih (updateWMat pk e)
    exact ⟨h2.1.trans h.1, h2.2.trans h.2.1⟩

theorem getD_map_range {β : Type} (f : ℕ → β) (dflt : β) (D i : ℕ) (h : i < D) :
    ((List.range D).map f).getD i dflt = f i := by
  rw [List.getD_eq_getElem _ _ (by simpa using h)]
  simp

theorem getD_join (D : ℕ) : ∀ (l : List (List ℚ)) (i j : ℕ), (∀ r ∈ l, r.length = D) →
    i < l.length → j < D → l.flatten.getD (i * D + j) 0 = (l.getD i []).getD j 0 := by
  intro l
  induction l with
  | nil =>
    intro i j _ hi _
    simp at hi
  | cons r t ih =>
    intro i j hlen hi hj
    have hr : r.length = D := hlen r (List.mem_cons_self r t)
    cases i with
    | zero =>
      show (r ++ t.flatten).getD (0 * D + j) 0 = _
      rw [List.getD_append r t.flatten 0 (0 * D + j) (by omega)]
      have hz : 0 * D + j = j := by omega
      rw [hz]
      rfl
    | succ i2 =>
      show (r ++ t.flatten).getD ((i2 + 1) * D + j) 0 = _
      have hsm : (i2 + 1) * D = i2 * D + D := by ring
      rw [List.getD_append_right r t.flatten 0 ((i2 + 1) * D + j)
        (by rw [hr]; omega)]
      have harith : (i2 + 1) * D + j - r.length = i2 * D + j := by
        rw [hr]
        omega
      rw [harith,
        ih i2 j (fun r2 h2 => hlen r2 (List.mem_cons_of_mem r h2))
          (by simp only [List.length_cons] at hi; omega) hj]
      rfl

theorem flattenW_getD (pk : PathKernel) (i j : ℕ) (hi : i < pk.DIM) (hj : j < pk.DIM) :
    (flattenW pk).getD (i * pk.DIM + j) 0 = pk.wmat i j := by
  have hlen : ∀ r ∈ getWMat pk, r.length = pk.DIM := by
    intro r hr
    obtain ⟨a, ha, rfl⟩ := List.mem_map.mp hr
    simp
  have hll : i < (getWMat pk).length := by
    show i < ((List.range pk.DIM).map _).length
    simpa using hi
  rw [show flattenW pk = (getWMat pk).flatten from rfl,
    getD_join pk.DIM (getWMat pk) i j hlen hll hj,
    show getWMat pk =
      (List.range pk.DIM).map (fun a => (List.range pk.DIM).map fun b => pk.wmat a b) from rfl,
    getD_map_range _ _ _ i hi, getD_map_range _ _ _ j hj]

theorem saveWMat_noop (pk : PathKernel) (fs : WFileSys) (h : shouldSave pk fs = false) :
    saveWMat pk fs = (pk, false, fs) := by
  unfold saveWMat
  rw [if_neg (by simp [h])]

theorem saveWMat_write (pk : PathKernel) (fs : WFileSys) (h : shouldSave pk fs = true) :
    saveWMat pk fs =
      (pk, true, fun key => if key = wkey pk then some ⟨pk.DIM, flattenW pk⟩ else fs key) := by
  unfold saveWMat
  rw [if_pos h]

theorem shouldSave_false_of_nowrite (pk : PathKernel) (fs : WFileSys)
    (h : ¬ (0 < pk.wDir.length ∧ pk.wW = true)) : shouldSave pk fs = false := by
  unfold shouldSave
  rw [if_neg h]

theorem shouldSave_false_of_record (pk : PathKernel) (fs : WFileSys) (r : CacheRecord)
    (hr : fs (wkey pk) = some r) (hd : pk.DIM ≤ r.dim) : shouldSave pk fs = false := by
  unfold shouldSave
  by_cases h : 0 < pk.wDir.length ∧ pk.wW = true
  · rw [if_pos h, hr]
    simp only [decide_eq_false_iff_not]
    omega
  · rw [if_neg h]

theorem shouldSave_true_elim (pk : PathKernel) (fs : WFileSys) (h : shouldSave pk fs = true) :
    0 < pk.wDir.length ∧ pk.wW = true ∧ ∀ r, fs (wkey pk) = some r → r.dim < pk.DIM := by
  unfold shouldSave at h
  by_cases hc : 0 < pk.wDir.length ∧ pk.wW = true
  · refine ⟨hc.1, hc.2, ?_⟩
    intro r hr
    rw [if_pos hc, hr] at h
    simpa using h
  · rw [if_neg hc] at h
    cases h

theorem loadWMat_nodir (pk : PathKernel) (fs : WFileSys) (h : pk.wDir.length = 0) :
    loadWMat pk fs = (pk, false) := by
  unfold loadWMat
  rw [if_neg (by omega)]

theorem loadWMat_none (pk : PathKernel) (fs : WFileSys) (hr : fs (wkey pk) = none) :
    loadWMat pk fs = (pk, false) := by
  unfold loadWMat
  by_cases hdir : 0 < pk.wDir.length
  · rw [if_pos hdir, hr]
  · rw [if_neg hdir]

theorem loadWMat_some_small (pk : PathKernel) (fs : WFileSys) (r : CacheRecord)
    (hr : fs (wkey pk) = some r) (hd : r.dim ≤ pk.DIM) :
    loadWMat pk fs = (pk, false) := by
  unfold loadWMat
  by_cases hdir : 0 < pk.wDir.length
  · rw [if_pos hdir, hr]
    show (if pk.DIM < r.dim then
        ({ pk with
            DIM := r.dim,
            wmat := fun i j =>
              if i < r.dim ∧ j < r.dim then r.vals.getD (i * r.dim + j) 0 else 0 },
          true)
      else (pk, false)) = (pk, false)
    rw [if_neg (by omega)]
  · rw [if_neg hdir]

theorem loadWMat_some_big (pk : PathKernel) (fs : WFileSys) (r : CacheRecord)
    (hdir : 0 < pk.wDir.length) (hr : fs (wkey pk) = some r) (hlt : pk.DIM < r.dim) :
    loadWMat pk fs =
      ({ pk with
          DIM := r.dim,
          wmat := fun i j =>
            if i < r.dim ∧ j < r.dim then r.vals.getD (i * r.dim + j) 0 else 0 },
        true) := by
  unfold loadWMat
  rw [if_pos hdir, hr]
  show (if pk.DIM < r.dim then
      ({ pk with
          DIM := r.dim,
          wmat := fun i j =>
            if i < r.dim ∧ j < r.dim then r.vals.getD (i * r.dim + j) 0 else 0 },
        true)
    else (pk, false)) = _
  rw [if_pos hlt]

theorem opPair_formula (α : Type) [Inhabited α] (gk : α → α → ℚ) (pk : PathKernel)
    (s t : List α) (k : ℚ) (hg : GoodState pk) (hs : s.length ≠ 0) (ht : t.length ≠ 0) :
    opPair gk pk s t k =
      (updateWMat pk (max s.length t.length),
        ∑ i ∈ Finset.range s.length, ∑ j ∈ Finset.range t.length,
          gk (s.getD i default) (t.getD j default) *
            (wfun pk.CHV pk.CD i j +
              wfun pk.CHV pk.CD (s.length - i - 1) (t.length - j - 1)) / 2) := by
  unfold opPair
  rw [if_neg (by omega)]
  obtain ⟨hd2, hw2⟩ := updateWMat_good pk (max s.length t.length) hg
  have hflds := updateWMat_fields pk (max s.length t.length)
  have hD : max s.length t.length ≤ (updateWMat pk (max s.length t.length)).DIM := by
    rw [updateWMat_DIM]
    exact le_max_right _ _
  have hms : s.length ≤ max s.length t.length := le_max_left _ _
  have hmt : t.length ≤ max s.length t.length := le_max_right _ _
  refine congrArg (Prod.mk _) ?_
  apply Finset.sum_congr rfl
  intro i hi
  apply Finset.sum_congr rfl
  intro j hj
  rw [Finset.mem_range] at hi hj
  rw [hw2, hflds.1, hflds.2.1,
    canonW_eq _ _ _ _ _ (by omega) (by omega),
    canonW_eq _ _ _ _ _ (by omega) (by omega)]

theorem opSelf_formula (α : Type) [Inhabited α] (gk : α → α → ℚ) (pk : PathKernel)
    (s : List α) (k : ℚ) (hg : GoodState pk) (hs : s.length ≠ 0) :
    opSelf gk pk s k =
      (updateWMat pk s.length,
        ∑ i ∈ Finset.range s.length,
          (gk (s.getD i default) (s.getD i default) * wfun pk.CHV pk.CD i i +
            ∑ j ∈ Finset.Ico (i + 1) s.length,
              2 * gk (s.getD i default) (s.getD j default) *
                (wfun pk.CHV pk.CD i j +
                  wfun pk.CHV pk.CD (s.length - i - 1) (s.length - j - 1)) / 2)) := by
  unfold opSelf
  rw [if_neg hs]
  obtain ⟨hd2, hw2⟩ := updateWMat_good pk s.length hg
  have hflds := updateWMat_fields pk s.length
  have hD : s.length ≤ (updateWMat pk s.length).DIM := by
    rw [updateWMat_DIM]
    exact le_max_right _ _
  refine congrArg (Prod.mk _) ?_
  apply Finset.sum_congr rfl
  intro i hi
  rw [Finset.mem_range] at hi
  rw [hw2, hflds.1, hflds.2.1, canonW_eq _ _ _ _ _ (by omega) (by omega)]
  refine congrArg (HAdd.hAdd _) ?_
  apply Finset.sum_congr rfl
  intro j hj
  rw [Finset.mem_Ico] at hj
  rw [canonW_eq _ _ _ _ _ (by omega) (by omega),
    canonW_eq _ _ _ _ _ (by omega) (by omega)]

theorem wfun_val_00 : wfun (3/10) (2/5) 0 0 = 1 := wfun_zero_zero _ _

theorem wfun_val_10 : wfun (3/10) (2/5) 1 0 = 3/10 := by
  rw [wfun_succ_zero, wfun_zero_zero]
  norm_num

theorem wfun_val_01 : wfun (3/10) (2/5) 0 1 = 3/10 := by
  rw [wfun_zero_succ, wfun_zero_zero]
  norm_num

theorem wfun_val_11 : wfun (3/10) (2/5) 1 1 = 29/50 := by
  rw [wfun_succ_succ, wfun_zero_succ, wfun_succ_zero, wfun_zero_zero]
  norm_num

theorem state2_eq : updateWMat (initPK (3/10) (2/5)) 2 = canonPK (3/10) (2/5) 2 := by
  rw [initPK_eq_canonPK, updateWMat_canonPK (3/10) (2/5) 1 2 (le_refl 1),
    max_eq_right (by norm_num : (1 : ℕ) ≤ 2)]

theorem getWMat_state2 :
    getWMat (updateWMat (initPK (3/10) (2/5)) 2) = [[1, 3/10], [3/10, 29/50]] := by
  rw [state2_eq]
  show ((List.range 2).map fun i => (List.range 2).map fun j => canonW (3/10) (2/5) 2 i j) = _
  rw [show List.range 2 = [0, 1] from rfl]
  simp only [List.map_cons, List.map_nil]
  rw [canonW_eq (3/10) (2/5) 2 0 0 (by norm_num) (by norm_num),
    canonW_eq (3/10) (2/5) 2 0 1 (by norm_num) (by norm_num),
    canonW_eq (3/10) (2/5) 2 1 0 (by norm_num) (by norm_num),
    canonW_eq (3/10) (2/5) 2 1 1 (by norm_num) (by norm_num),
    wfun_val_00, wfun_val_01, wfun_val_10, wfun_val_11]

theorem opPair_val : (opPair gkInd (initPK (3/10) (2/5)) [0, 1] [0, 1] 0).2 = 79/50 := by
  rw [opPair_formula ℕ gkInd (initPK (3/10) (2/5)) [0, 1] [0, 1] 0 (initPK_good _ _)
    (by norm_num) (by norm_num)]
  norm_num [Finset.sum_range_succ, Finset.sum_range_zero, List.getD, gkInd, initPK,
    wfun_val_00, wfun_val_01, wfun_val_10, wfun_val_11]

theorem opSelf_val : (opSelf gkDemo (initPK (3/10) (2/5)) [0, 1] 0).2 = 129/50 := by
  rw [opSelf_formula ℕ gkDemo (initPK (3/10) (2/5)) [0, 1] 0 (initPK_good _ _)
    (by norm_num)]
  norm_num [Finset.sum_range_succ, Finset.sum_range_zero, Finset.sum_Ico_eq_sum_range,
    List.getD, gkDemo, initPK, wfun_val_00, wfun_val_01, wfun_val_10, wfun_val_11]

theorem opPairSS_val : (opPair gkDemo (initPK (3/10) (2/5)) [0, 1] [0, 1] 0).2 = 237/100 := by
  rw [opPair_formula ℕ gkDemo (initPK (3/10) (2/5)) [0, 1] [0, 1] 0 (initPK_good _ _)
    (by norm_num) (by norm_num)]
  norm_num [Finset.sum_range_succ, Finset.sum_range_zero, List.getD, gkDemo, initPK,
    wfun_val_00, wfun_val_01, wfun_val_10, wfun_val_11]

/-- Claim C1: for a valid construction and any non-decreasing sequence of
extend targets ending at n with n at least one, folding the incremental
extend over the sequence produces exactly the same engine state as one
extend(n) on a freshly constructed engine, and that state carries precisely
the from-scratch recurrence values at every cell of the dimension-n table. -/
theorem pathkernel_C1 (chv cd : ℚ) (_hchv : 0 < chv) (_hcd : 0 < cd)
    (ds : List ℕ) (n : ℕ) (hn : 1 ≤ n)
    (hchain : ds.Chain' (· ≤ ·)) (hlast : ds.getLast? = some n) :
    ds.foldl updateWMat (initPK chv cd) = updateWMat (initPK chv cd) n ∧
    ∀ i j, i < n → j < n →
      (updateWMat (initPK chv cd) n).wmat i j = wfun chv cd i j := by
  have hfold : ds.foldl updateWMat (initPK chv cd) = canonPK chv cd (ds.foldl max 1) := by
    rw [initPK_eq_canonPK, foldl_updateWMat_canonPK chv cd ds 1 (le_refl 1)]
  have hone : updateWMat (initPK chv cd) n = canonPK chv cd n := by
    rw [initPK_eq_canonPK, updateWMat_canonPK chv cd 1 n (le_refl 1), max_eq_right hn]
  have hmax : ds.foldl max 1 = n := by
    have hle : ds.foldl max 1 ≤ n :=
      foldl_max_le n ds 1 hn (chain_le_last ds hchain n hlast)
    have hge : n ≤ ds.foldl max 1 :=
      mem_le_foldl_max ds 1 n (mem_of_getLast_eq ds n hlast)
    omega
  constructor
  · rw [hfold, hone, hmax]
  · intro i j hi hj
    rw [hone]
    exact canonW_eq chv cd n i j hi hj

/-- Witness for C1 at a concrete instance. -/
theorem pathkernel_C1_witness :
    ([1, 2, 3] : List ℕ).foldl updateWMat (initPK 1 1) = updateWMat (initPK 1 1) 3 :=
  (pathkernel_C1 1 1 (by norm_num) (by norm_num) [1, 2, 3] 3 (by norm_num)
    (by simp [List.chain'_cons]) rfl).1

/-- Claim C2: every engine state reachable by valid construction followed by
extend calls has a square DIM x DIM weight table that is symmetric, has
value one at the origin and has strictly positive entries throughout. -/
theorem pathkernel_C2 (pk : PathKernel) (h : Reachable pk) :
    (getWMat pk).length = pk.DIM ∧
    (∀ row ∈ getWMat pk, row.length = pk.DIM) ∧
    (∀ i j, i < pk.DIM → j < pk.DIM → pk.wmat i j = pk.wmat j i) ∧
    pk.wmat 0 0 = 1 ∧
    (∀ i j, i < pk.DIM → j < pk.DIM → 0 < pk.wmat i j) := by
  obtain ⟨hdim, hwm⟩ := reachable_good pk h
  obtain ⟨chv, cd, ds, hchv, hcd, hpk⟩ := h
  have hparams := foldl_updateWMat_params ds (initPK chv cd)
  have hCHV : pk.CHV = chv := by rw [hpk]; exact hparams.1
  have hCD : pk.CD = cd := by rw [hpk]; exact hparams.2
  refine ⟨?_, ?_, ?_, ?_, ?_⟩
  · show ((List.range pk.DIM).map _).length = pk.DIM
    simp
  · intro row hrow
    obtain ⟨a, ha, rfl⟩ := List.mem_map.mp hrow
    simp
  · intro i j hi hj
    rw [hwm, canonW_eq _ _ _ _ _ hi hj, canonW_eq _ _ _ _ _ hj hi]
    exact wfun_symm _ _ i j
  · rw [hwm, canonW_eq _ _ _ _ _ (by omega) (by omega), wfun_zero_zero]
  · intro i j hi hj
    rw [hwm, canonW_eq _ _ _ _ _ hi hj, hCHV, hCD]
    exact wfun_pos chv cd hchv hcd i j

/-- Witness for C2 at a concrete reachable state. -/
theorem pathkernel_C2_witness :
    (updateWMat (initPK 1 1) 2).wmat 0 0 = 1 :=
  (pathkernel_C2 (updateWMat (initPK 1 1) 2)
    ⟨1, 1, [2], by norm_num, by norm_num, rfl⟩).2.2.2.1

/-- Claim C3: on non-empty inputs the two-sequence operator extends the
weight matrix to max(len s, len t) and returns the sum over all index pairs
of the ground-kernel value times the averaged pair of mirrored weight
entries; concretely, with CHV = 3/10 and CD = 2/5, extend(2) yields the
table [[1, 3/10], [3/10, 29/50]] and the indicator ground kernel on
s = t = [0, 1] yields the value 79/50. -/
theorem pathkernel_C3 :
    (∀ (α : Type) [Inhabited α] (gk : α → α → ℚ) (pk : PathKernel) (s t : List α) (k : ℚ),
        GoodState pk → s.length ≠ 0 → t.length ≠ 0 →
        opPair gk pk s t k =
          (updateWMat pk (max s.length t.length),
            ∑ i ∈ Finset.range s.length, ∑ j ∈ Finset.range t.length,
              gk (s.getD i default) (t.getD j default) *
                (wfun pk.CHV pk.CD i j +
                  wfun pk.CHV pk.CD (s.length - i - 1) (t.length - j - 1)) / 2)) ∧
    getWMat (updateWMat (initPK (3/10) (2/5)) 2) = [[1, 3/10], [3/10, 29/50]] ∧
    (opPair gkInd (initPK (3/10) (2/5)) [0, 1] [0, 1] 0).2 = 79/50 := by
  exact ⟨fun α _ gk pk s t k hg hs ht => opPair_formula α gk pk s t k hg hs ht,
    getWMat_state2, opPair_val⟩

/-- Witness for C3 at a concrete instance of the general formula. -/
theorem pathkernel_C3_witness :
    (opPair gkInd (initPK 1 1) [0] [0] 0).1 = updateWMat (initPK 1 1) 1 :=
  congrArg Prod.fst
    (pathkernel_C3.1 ℕ gkInd (initPK 1 1) [0] [0] 0 (initPK_good 1 1)
      (by decide) (by decide))

/-- Claim C4: extend is monotone and idempotent: extend(n) followed by
extend(m) with m at most n leaves the state exactly as after extend(n), and
in general extend(d) with d at most the current dimension is a no-op. -/
theorem pathkernel_C4 :
    (∀ (pk : PathKernel) (n m : ℕ), 1 ≤ m → m ≤ n →
        updateWMat (updateWMat pk n) m = updateWMat pk n) ∧
    (∀ (pk : PathKernel) (d : ℕ), d ≤ pk.DIM → updateWMat pk d = pk) := by
  have hnoop : ∀ (pk : PathKernel) (d : ℕ), d ≤ pk.DIM → updateWMat pk d = pk := by
    intro pk d hd
    unfold updateWMat
    rw [if_neg (by omega)]
  refine ⟨?_, hnoop⟩
  intro pk n m _ hmn
  apply hnoop
  rw [updateWMat_DIM]
  exact le_trans hmn (le_max_right _ _)

/-- Witness for C4 at a concrete instance. -/
theorem pathkernel_C4_witness :
    updateWMat (updateWMat (initPK 1 1) 3) 2 = updateWMat (initPK 1 1) 3 :=
  pathkernel_C4.1 (initPK 1 1) 3 2 (by norm_num) (by norm_num)

/-- Claim C5, evaluation at the failing input: with CHV = 3/10, CD = 2/5,
the SymKernel ground kernel [[2, 0], [0, 1]] and s = [0, 1], the optimised
single-sequence operator returns 129/50 while the two-sequence operator on
(s, s) returns 237/100; the two operators disagree because the diagonal
term of the self form uses skm[i][i] * wmat[i][i] instead of the averaged
skm[i][i] * (wmat[i][i] + wmat[n-i-1][n-i-1]) / 2 of the pairwise form,
contradicting the documented equivalence. -/
theorem pathkernel_C5_eval :
    (opSelf gkDemo (initPK (3/10) (2/5)) [0, 1] 0).2 = 129/50 ∧
    (opPair gkDemo (initPK (3/10) (2/5)) [0, 1] [0, 1] 0).2 = 237/100 ∧
    (opSelf gkDemo (initPK (3/10) (2/5)) [0, 1] 0).2 ≠
      (opPair gkDemo (initPK (3/10) (2/5)) [0, 1] [0, 1] 0).2 := by
  refine ⟨opSelf_val, opPairSS_val, ?_⟩
  rw [opSelf_val, opPairSS_val]
  norm_num

/-- Claim C6, counterexample: the vector-output batched operator performs no
emptiness check; on an empty input list it returns normally, with the
output resized to length zero, rather than failing with the empty-input
error as the claim asserts for every batched operation. -/
theorem pathkernel_C6_counterexample :
    opSelfVec gkDemo (initPK 1 1) ([] : List (List ℕ)) [5] =
      Except.ok (initPK 1 1, ([] : List ℚ)) := rfl

/-- Claim C6 as amended: the two matrix-output batched operators fail with
the empty-input error whenever an input list is empty, performing no kernel
evaluation; the vector-output batched operator performs no check and
returns normally with the output resized to empty. -/
theorem pathkernel_C6_amended :
    (∀ (α : Type) [Inhabited α] (gk : α → α → ℚ) (pk : PathKernel)
        (slist tlist : List (List α)) (km : List (List ℚ)),
        slist.length = 0 ∨ tlist.length = 0 →
        opPairList gk pk slist tlist km = Except.error "Empty sequence vector.") ∧
    (∀ (α : Type) [Inhabited α] (gk : α → α → ℚ) (pk : PathKernel) (km : List (List ℚ)),
        opSelfList gk pk ([] : List (List α)) km = Except.error "Empty sequence vector.") ∧
    (∀ (α : Type) [Inhabited α] (gk : α → α → ℚ) (pk : PathKernel) (kv : List ℚ),
        opSelfVec gk pk ([] : List (List α)) kv = Except.ok (pk, ([] : List ℚ))) := by
  refine ⟨?_, ?_, ?_⟩
  · intro α _ gk pk slist tlist km h
    unfold opPairList
    rw [if_pos h]
  · intro α _ gk pk km
    unfold opSelfList
    rw [if_pos (show ([] : List (List α)).length = 0 from rfl)]
  · intro α _ gk pk kv
    rfl

/-- Witness for the amended C6 at a concrete instance. -/
theorem pathkernel_C6_witness :
    opPairList gkDemo (initPK 1 1) ([] : List (List ℕ)) [] [] =
      Except.error "Empty sequence vector." :=
  pathkernel_C6_amended.1 ℕ gkDemo (initPK 1 1) [] [] [] (Or.inl rfl)

/-- Claim C7: saveWMat returns false and writes nothing when no directory is
configured or writing is not permitted, or when an existing record for the
same parameters has dimension at least the current one, and returns true
exactly when the file system changed; loadWMat returns false and changes
nothing when no directory is configured, no record exists, or the stored
dimension is at most the current one, and returns true exactly when the
dimension and table were replaced by the larger stored values. -/
theorem pathkernel_C7 (pk : PathKernel) (fs : WFileSys) :
    (¬ (0 < pk.wDir.length ∧ pk.wW = true) → saveWMat pk fs = (pk, false, fs)) ∧
    (∀ r, fs (wkey pk) = some r → pk.DIM ≤ r.dim → saveWMat pk fs = (pk, false, fs)) ∧
    ((saveWMat pk fs).2.1 = true ↔ (saveWMat pk fs).2.2 ≠ fs) ∧
    (pk.wDir.length = 0 → loadWMat pk fs = (pk, false)) ∧
    (fs (wkey pk) = none → loadWMat pk fs = (pk, false)) ∧
    (∀ r, fs (wkey pk) = some r → r.dim ≤ pk.DIM → loadWMat pk fs = (pk, false)) ∧
    ((loadWMat pk fs).2 = true ↔
      ∃ r, fs (wkey pk) = some r ∧ pk.DIM < r.dim ∧
        (loadWMat pk fs).1.DIM = r.dim ∧
        (loadWMat pk fs).1.wmat = fun i j =>
          if i < r.dim ∧ j < r.dim then r.vals.getD (i * r.dim + j) 0 else 0) := by
  refine ⟨?_, ?_, ?_, ?_, ?_, ?_, ?_⟩
  · intro h
    exact saveWMat_noop pk fs (shouldSave_false_of_nowrite pk fs h)
  · intro r hr hd
    exact saveWMat_noop pk fs (shouldSave_false_of_record pk fs r hr hd)
  · cases hb : shouldSave pk fs with
    | false =>
      rw [saveWMat_noop pk fs hb]
      simp
    | true =>
      rw [saveWMat_write pk fs hb]
      constructor
      · intro _ heq
        have h2 : (if wkey pk = wkey pk then some (⟨pk.DIM, flattenW pk⟩ : CacheRecord)
            else fs (wkey pk)) = fs (wkey pk) := congrFun heq (wkey pk)
        rw [if_pos rfl] at h2
        obtain ⟨_, _, hrec⟩ := shouldSave_true_elim pk fs hb
        cases hfk : fs (wkey pk) with
        | none =>
          rw [hfk] at h2
          cases h2
        | some r =>
          have hlt := hrec r hfk
          rw [hfk] at h2
          have h3 : (⟨pk.DIM, flattenW pk⟩ : CacheRecord) = r := Option.some.inj h2
          have h4 : pk.DIM = r.dim := congrArg CacheRecord.dim h3
          omega
      · intro _
        rfl
  · intro h
    exact loadWMat_nodir pk fs h
  · intro h
    exact loadWMat_none pk fs h
  · intro r hr hd
    exact loadWMat_some_small pk fs r hr hd
  · by_cases hdir : 0 < pk.wDir.length
    · cases hfk : fs (wkey pk) with
      | none =>
        rw [loadWMat_none pk fs hfk]
        simp [hfk]
      | some r =>
        by_cases hlt : pk.DIM < r.dim
        · rw [loadWMat_some_big pk fs r hdir hfk hlt]
          constructor
          · intro _
            exact ⟨r, rfl, hlt, rfl, rfl⟩
          · intro _
            rfl
        · rw [loadWMat_some_small pk fs r hfk (by omega)]
          constructor
          · intro h
            cases h
          · rintro ⟨r2, hr2, hlt2, _, _⟩
            have hrr : r = r2 := Option.some.inj hr2
            subst hrr
            exact absurd hlt2 hlt
    · rw [loadWMat_nodir pk fs (by omega)]
      constructor
      · intro h
        cases h
      · rintro ⟨r2, hr2, hlt2, hdim2, _⟩
        have hd2 : pk.DIM = r2.dim := hdim2
        exact absurd hlt2 (by omega)

/-- Witness for C7 at a concrete instance with no configured directory. -/
theorem pathkernel_C7_witness :
    saveWMat (initPK 1 1) (fun _ => none) = (initPK 1 1, false, fun _ => none) :=
  (pathkernel_C7 (initPK 1 1) (fun _ => none)).1 (by decide)

/-- Claim C8: after a successful save, a freshly constructed engine with the
same step-cost parameters and the same cache directory that calls load ends
with the dimension and the weight table identical to the table that was
saved. -/
theorem pathkernel_C8 (pk : PathKernel) (fs : WFileSys)
    (hdim : 1 ≤ pk.DIM) (h00 : pk.wmat 0 0 = 1)
    (hsave : (saveWMat pk fs).2.1 = true) :
    ((loadWMat (folder (initPK pk.CHV pk.CD) pk.wDir false) (saveWMat pk fs).2.2).1.DIM
        = pk.DIM) ∧
    getWMat (loadWMat (folder (initPK pk.CHV pk.CD) pk.wDir false) (saveWMat pk fs).2.2).1
        = getWMat pk := by
  have hss : shouldSave pk fs = true := by
    cases hb : shouldSave pk fs with
    | false =>
      rw [saveWMat_noop pk fs hb] at hsave
      cases hsave
    | true => rfl
  obtain ⟨hdir, hww, _⟩ := shouldSave_true_elim pk fs hss
  have hsv := saveWMat_write pk fs hss
  have hfs2 : (saveWMat pk fs).2.2 (wkey (folder (initPK pk.CHV pk.CD) pk.wDir false)) =
      some ⟨pk.DIM, flattenW pk⟩ := by
    rw [hsv]
    show (if wkey (folder (initPK pk.CHV pk.CD) pk.wDir false) = wkey pk
        then some (⟨pk.DIM, flattenW pk⟩ : CacheRecord)
        else fs (wkey (folder (initPK pk.CHV pk.CD) pk.wDir false))) = _
    rw [if_pos (show wkey (folder (initPK pk.CHV pk.CD) pk.wDir false) = wkey pk from rfl)]
  by_cases hbig : 1 < pk.DIM
  · rw [loadWMat_some_big (folder (initPK pk.CHV pk.CD) pk.wDir false) ((saveWMat pk fs).2.2)
      ⟨pk.DIM, flattenW pk⟩ hdir hfs2 hbig]
    constructor
    · rfl
    · unfold getWMat
      apply List.map_congr_left
      intro a ha
      rw [List.mem_range] at ha
      apply List.map_congr_left
      intro b hb
      rw [List.mem_range] at hb
      show (if a < pk.DIM ∧ b < pk.DIM then (flattenW pk).getD (a * pk.DIM + b) 0 else 0)
          = pk.wmat a b
      rw [if_pos ⟨ha, hb⟩, flattenW_getD pk a b ha hb]
  · have hd1 : pk.DIM = 1 := by omega
    rw [loadWMat_some_small (folder (initPK pk.CHV pk.CD) pk.wDir false) ((saveWMat pk fs).2.2)
      ⟨pk.DIM, flattenW pk⟩ hfs2 (by show pk.DIM ≤ 1; omega)]
    constructor
    · show (1 : ℕ) = pk.DIM
      omega
    · show ((List.range 1).map fun i => (List.range 1).map fun j =>
          (folder (initPK pk.CHV pk.CD) pk.wDir false).wmat i j)
        = (List.range pk.DIM).map fun i => (List.range pk.DIM).map fun j => pk.wmat i j
      rw [hd1, show List.range 1 = [0] from rfl]
      simp only [List.map_cons, List.map_nil]
      rw [h00]
      rfl

/-- Witness for C8 at a concrete instance. -/
theorem pathkernel_C8_witness :
    (loadWMat (folder (initPK 1 1) "d" false)
        (saveWMat (folder (initPK 1 1) "d" true) (fun _ => none)).2.2).1.DIM
      = (folder (initPK 1 1) "d" true).DIM :=
  (pathkernel_C8 (folder (initPK 1 1) "d" true) (fun _ => none) (le_refl 1) rfl
    (by decide)).1

/-- Claim C9: the pairwise and self evaluation operators, called with an
empty input sequence, return normally, leave the output value exactly as it
was, and leave the engine state unchanged. -/
theorem pathkernel_C9 :
    (∀ (α : Type) [Inhabited α] (gk : α → α → ℚ) (pk : PathKernel) (s t : List α) (k : ℚ),
        s.length = 0 ∨ t.length = 0 → opPair gk pk s t k = (pk, k)) ∧
    (∀ (α : Type) [Inhabited α] (gk : α → α → ℚ) (pk : PathKernel) (k : ℚ),
        opSelf gk pk ([] : List α) k = (pk, k)) := by
  constructor
  · intro α _ gk pk s t k h
    unfold opPair
    rw [if_pos h]
  · intro α _ gk pk k
    rfl

/-- Witness for C9 at a concrete instance. -/
theorem pathkernel_C9_witness :
    opPair gkDemo (initPK 1 1) ([] : List ℕ) [0] 5 = (initPK 1 1, 5) :=
  pathkernel_C9.1 ℕ gkDemo (initPK 1 1) [] [0] 5 (Or.inl rfl)

/-- Claim C10: saveWMat never modifies the in-memory engine state: the
engine component of its result is the input state unchanged, whatever the
directory, permission and cache contents are; only the file-system
component can differ. -/
theorem pathkernel_C10 (pk : PathKernel) (fs : WFileSys) : (saveWMat pk fs).1 = pk := by
  unfold saveWMat
  by_cases h : shouldSave pk fs = true
  · rw [if_pos h]
  · rw [if_neg h]

end TinyKernelLib
